import Mathlib

/-!
Verification of the remake build coordinator (`src/remake.cpp`) against its
natural-language specification.

The C++ source is shallowly embedded: maps (`status`, `dependencies`,
`job_targets`, `job_pids`) become functions into `Option`, file modification
times become `Nat` (a missing file is `Option.none`), strings are `String` or
`List Char`, and each C++ function is translated into a Lean function of the
corresponding state.  A default-constructed C++ `status_t` has indeterminate
contents; it is modelled by an explicit `uninit` field of the environment, so
theorems quantify over the garbage value instead of baking one in.
-/

namespace Remake

/-- Build status of a target (`enum status_e`). -/
inductive status_e where
  | Uptodate
  | Todo
  | Recheck
  | Running
  | Remade
  | Failed
deriving DecidableEq, Repr

/-- Cached status and last-observed modification time (`struct status_t`).
`last = 0` encodes the source's use of mtime 0 for a missing file. -/
structure status_t where
  status : status_e
  last : Nat
deriving DecidableEq, Repr

/-- A shared dependency record (`struct dependency_t`).  The `std::set` of
prerequisites is modelled as a duplicate-free list in iteration order. -/
structure dependency_t where
  targets : List String
  deps : List String
deriving DecidableEq, Repr

/-- The global `status` map, `std::map<std::string, status_t>`. -/
def StatusMap := String → Option status_t

/-- Store a value in a status map (`status[k] = v`). -/
def smUpd (sm : StatusMap) (k : String) (v : status_t) : StatusMap :=
  fun x => if x = k then some v else sm x

/-- The parts of the coordinator state that `get_status` and
`still_need_rebuild` read: the filesystem (`stat`), the `dependencies` map,
and the contents of a default-constructed (uninitialized) `status_t`. -/
structure env_t where
  fs : String → Option Nat
  dependencies : String → Option dependency_t
  uninit : status_t

@[simp] theorem smUpd_same (sm : StatusMap) (k : String) (v : status_t) :
    smUpd sm k v k = some v := by
  simp [smUpd]

@[simp] theorem smUpd_other (sm : StatusMap) (k k' : String) (v : status_t)
    (h : k' ≠ k) : smUpd sm k v k' = sm k' := by
  simp [smUpd, h]

/-! ## `update_status` (remake.cpp:1761-1789)

After a script reports success, recompute the status of each declared
target from its recorded mtime, the current mtime, and the startup time
`now`. -/

/-- Model of `update_status` on one target's cached entry (`remake.cpp:1761`):
the status is first set to `Remade`; if the recorded mtime is at or after
startup the function returns at once; otherwise the file is statted and the
entry is updated as in the source. -/
def update_status (fs : String → Option Nat) (now : Nat) (t : String)
    (ts : status_t) : status_t :=
  if now ≤ ts.last then ⟨.Remade, ts.last⟩
  else
    match fs t with
    | none => ⟨.Remade, 0⟩
    | some m => if m ≠ ts.last then ⟨.Remade, m⟩ else ⟨.Uptodate, ts.last⟩

/-- Model of `update_status` lifted to the status map; the source asserts that the
entry exists, so a missing entry leaves the map unchanged. -/
def update_status_map (fs : String → Option Nat) (now : Nat)
    (sm : StatusMap) (t : String) : StatusMap :=
  match sm t with
  | none => sm
  | some ts => smUpd sm t (update_status fs now t ts)

/-! ## `run_script` argument vector (remake.cpp:2033-2043)

The non-Windows branch builds `char const *argv[5] = {"sh","-e","-s",0,0}`
and sets slot 3 to `"-v"` when script echoing is enabled; nothing else is
ever placed in `argv`. -/

/-- The argument vector passed to `execv("/bin/sh", argv)` by `run_script`.
Note that the source never appends the rule's target names. -/
def shell_argv (echo_scripts : Bool) : List String :=
  ["sh", "-e", "-s"] ++ (if echo_scripts then ["-v"] else [])

/-! ## `still_need_rebuild` (remake.cpp:1794-1815), the status-marking part
of `start` (remake.cpp:2065-2069) and the deferred branch of
`complete_request` (remake.cpp:2090-2100). -/

/-- Assignment `status[*k].status = st` for every `k` in a list, as done by the final
loop of `get_status`, the downgrade loop of `still_need_rebuild` and the
`Running` marking in `start`.  `operator[]` default-constructs a missing
entry before the assignment, so an absent key receives `e.uninit.last`. -/
def setStatusAll (e : env_t) : StatusMap → status_e → List String → StatusMap
  | sm, _, [] => sm
  | sm, st, k :: ks =>
      setStatusAll e (smUpd sm k ⟨st, ((sm k).getD e.uninit).last⟩) st ks

/-- The prerequisite scan of `still_need_rebuild`: return `true` as soon as
some prerequisite's status is not `Uptodate` (`status[*k]` default-inserts
a missing entry first). -/
def snr_deps (e : env_t) : StatusMap → List String → Bool × StatusMap
  | sm, [] => (false, sm)
  | sm, k :: ks =>
      let v := (sm k).getD e.uninit
      let sm' := smUpd sm k v
      if v.status ≠ .Uptodate then (true, sm') else snr_deps e sm' ks

/-- Model of `still_need_rebuild(target)` (`remake.cpp:1794`): `true` means the
deferred script must still run.  The source asserts that the status entry
and the dependency record exist; a missing one is modelled as returning
`true` unchanged (the asserted-unreachable branches). -/
def still_need_rebuild (e : env_t) (sm : StatusMap) (t : String) :
    Bool × StatusMap :=
  match sm t with
  | none => (true, sm)
  | some ts =>
    if ts.status ≠ .Recheck then (true, sm)
    else
      match e.dependencies t with
      | none => (true, sm)
      | some dep =>
        let r := snr_deps e sm dep.deps
        if r.1 then (true, r.2)
        else (false, setStatusAll e r.2 .Uptodate dep.targets)

/-- What `complete_request` does with a dependency client once its pending
and running sets are empty (`remake.cpp:2090-2100`). -/
inductive script_action where
  | run
  | skip_uptodate
  | fail
deriving DecidableEq, Repr

/-- The deferred-rule branch of `complete_request`: on success, run the
script iff `still_need_rebuild` of the rule's first target says so,
otherwise complete the job successfully without running it; on failure,
complete the job as failed. -/
def complete_request_delayed (e : env_t) (sm : StatusMap)
    (rule_targets : List String) (success : Bool) :
    script_action × StatusMap :=
  if success then
    let r := still_need_rebuild e sm (rule_targets.headD "")
    if r.1 then (.run, r.2) else (.skip_uptodate, r.2)
  else (.fail, sm)

/-- The status marking performed by `start` (`remake.cpp:2065-2069`):
every target of the resolved rule is set to `Running`. -/
def start_mark_running (e : env_t) (sm : StatusMap) (tgts : List String) :
    StatusMap :=
  setStatusAll e sm .Running tgts

/-! ## `get_status` (remake.cpp:1692-1755)

`get_status` memoizes by inserting a default-constructed entry before
computing; the recursion therefore always terminates in the source, and is
modelled here with an explicit fuel argument whose exhaustion case never
fires when enough fuel is supplied. -/

/-- The sibling loop of `get_status` (`remake.cpp:1718-1730`): `stat` every
target of the record, store each mtime in its status entry (keeping the
entry's status field, or the default-constructed one for a fresh entry),
switch the running status to `Todo` if some sibling is missing, and track
the latest mtime. -/
def statSiblings (e : env_t) :
    StatusMap → status_e → Nat → List String → StatusMap × status_e × Nat
  | sm, st, latest, [] => (sm, st, latest)
  | sm, st, latest, k :: ks =>
      let mt := (e.fs k).getD 0
      let st' := if (e.fs k).isNone then status_e.Todo else st
      statSiblings e (smUpd sm k ⟨((sm k).getD e.uninit).status, mt⟩) st'
        (max latest mt) ks

/-- The prerequisite loop of `get_status` (`remake.cpp:1732-1746`),
parameterized by the recursive call `rec`: conclude `Todo` at the first
prerequisite whose last time exceeds `latest`, otherwise switch the
accumulator to `Recheck` at every prerequisite that is not `Uptodate`. -/
def checkDeps (rec : StatusMap → String → StatusMap × status_t)
    (latest : Nat) : StatusMap → status_e → List String → StatusMap × status_e
  | sm, st, [] => (sm, st)
  | sm, st, k :: ks =>
      let r := rec sm k
      if latest < r.2.last then (r.1, .Todo)
      else if r.2.status = .Uptodate then checkDeps rec latest r.1 st ks
      else checkDeps rec latest r.1 .Recheck ks

/-- The record evaluation of `get_status` up to the concluded status
(`remake.cpp:1716-1747`): the sibling scan, then — unless a sibling was
missing — the prerequisite scan. -/
def record_scan (e : env_t)
    (rec : StatusMap → String → StatusMap × status_t) (sm1 : StatusMap)
    (dep : dependency_t) : StatusMap × status_e :=
  let r1 := statSiblings e sm1 .Uptodate 0 dep.targets
  if r1.2.1 = status_e.Todo then (r1.1, status_e.Todo)
  else checkDeps rec r1.2.2 r1.1 .Uptodate dep.deps

/-- The record branch of `get_status` (`remake.cpp:1715-1754`): evaluate
the record, assign the concluded status to every sibling, and return the
target's resulting entry. -/
def get_status_record (e : env_t)
    (rec : StatusMap → String → StatusMap × status_t) (sm1 : StatusMap)
    (target : String) (dep : dependency_t) : StatusMap × status_t :=
  let r2 := record_scan e rec sm1 dep
  let sm4 := setStatusAll e r2.1 r2.2 dep.targets
  (sm4, (sm4 target).getD e.uninit)

/-- Model of `get_status(target)` (`remake.cpp:1692`).  A memoized entry is returned
unchanged; otherwise a default-constructed entry is inserted first, and the
status is computed exactly as in the source: without a dependency record
from a single `stat`, with one from the sibling scan followed by the
prerequisite scan, the conclusion finally being assigned to every sibling. -/
def get_status (e : env_t) : Nat → StatusMap → String → StatusMap × status_t
  | 0, sm, _ => (sm, e.uninit)
  | fuel + 1, sm, target =>
    match sm target with
    | some ts => (sm, ts)
    | none =>
      let sm1 := smUpd sm target e.uninit
      match e.dependencies target with
      | none =>
        match e.fs target with
        | none => (smUpd sm1 target ⟨.Todo, 0⟩, ⟨.Todo, 0⟩)
        | some m => (smUpd sm1 target ⟨.Uptodate, m⟩, ⟨.Uptodate, m⟩)
      | some dep => get_status_record e (get_status e fuel) sm1 target dep

/-! Spec-shaped restatement of the `get_status` algorithm (spec §4.4),
used to formulate the claim about the computed conclusion. -/

/-- Spec step 2, recording part: "`stat` every sibling in R's target list,
recording each's mtime individually". -/
def spec_record_lasts (e : env_t) : StatusMap → List String → StatusMap
  | sm, [] => sm
  | sm, k :: ks =>
      spec_record_lasts e
        (smUpd sm k ⟨((sm k).getD e.uninit).status, (e.fs k).getD 0⟩) ks

/-- Spec step 3: "for each prerequisite d, recurse.  If `latest <
status(d).last` conclude Todo.  If any prerequisite is not Uptodate,
conclude Recheck.  Otherwise Uptodate." -/
def spec_check (rec : StatusMap → String → StatusMap × status_t)
    (latest : Nat) : StatusMap → List String → StatusMap × status_e
  | sm, [] => (sm, .Uptodate)
  | sm, d :: ds =>
      let r := rec sm d
      if latest < r.2.last then (r.1, .Todo)
      else
        match spec_check rec latest r.1 ds with
        | (sm', .Todo) => (sm', .Todo)
        | (sm', st') =>
            (sm', if r.2.status = .Uptodate then st' else .Recheck)

/-- The status the spec's algorithm concludes for a target `t` with shared
record `R`, first evaluated in map `sm`: Todo if a sibling is missing,
else the sequential prerequisite scan of spec step 3 run with the maximum
sibling mtime, in the map obtained after memo-inserting `t` and recording
every sibling's mtime. -/
def spec_status_conclusion (e : env_t) (fuel : Nat) (sm : StatusMap)
    (t : String) (R : dependency_t) : status_e :=
  if R.targets.any (fun k => (e.fs k).isNone) then .Todo
  else
    (spec_check (get_status e fuel)
      (R.targets.foldl (fun a k => max a ((e.fs k).getD 0)) 0)
      (spec_record_lasts e (smUpd sm t e.uninit) R.targets) R.deps).2

/-- Spec step 1: without a dependency record, a failed `stat` yields Todo
with last 0, an existing file Uptodate with its mtime. -/
def spec_no_record_status (e : env_t) (t : String) : status_t :=
  match e.fs t with
  | none => ⟨.Todo, 0⟩
  | some m => ⟨.Uptodate, m⟩

/-- The entry for `k` holds exactly the mtime recorded from the modelled
filesystem (0 for a missing file). -/
def lastOK (e : env_t) (sm : StatusMap) (k : String) : Prop :=
  ∃ v, sm k = some v ∧ v.last = (e.fs k).getD 0

/-- Combination of the running accumulator of the prerequisite loop with
the conclusion of the remaining loop (used to relate the loop to the
spec's sequential reading). -/
def status_combine (acc st' : status_e) : status_e :=
  if st' = .Todo then .Todo
  else if acc = .Recheck ∨ st' = .Recheck then .Recheck
  else .Uptodate

/-! ## `complete_job` (remake.cpp:1820-1848) and `finalize_job`
(remake.cpp:2406-2414). -/

/-- The scheduler state touched by job completion. -/
structure sched_state where
  status : StatusMap
  fs : String → Option Nat
  job_targets : Int → Option (List String)
  job_pids : Nat → Option Int
  running_jobs : Int

/-- File deletion, `remove(path)`. -/
def remove_file (fs : String → Option Nat) (t : String) :
    String → Option Nat :=
  fun x => if x = t then none else fs x

/-- Model of `complete_job(job_id, success)` (`remake.cpp:1820`): on success run
`update_status` over the job's declared targets; on failure mark each
target `Failed` and unlink it, and emit one "Failed to build ..." line
naming every sibling (returned as `some` list of the printed names).
The job is removed from `job_targets` in both cases. -/
def complete_job (u : status_t) (now : Nat) (st : sched_state)
    (job_id : Int) (success : Bool) : sched_state × Option (List String) :=
  match st.job_targets job_id with
  | none => (st, none)
  | some tgts =>
    if success then
      ({ st with
          status := tgts.foldl (update_status_map st.fs now) st.status
          job_targets := fun j => if j = job_id then none else st.job_targets j },
        none)
    else
      ({ st with
          status := tgts.foldl
            (fun sm t => smUpd sm t ⟨.Failed, ((sm t).getD u).last⟩) st.status
          fs := tgts.foldl remove_file st.fs
          job_targets := fun j => if j = job_id then none else st.job_targets j },
        some tgts)

/-- Model of `finalize_job(pid, res)` (`remake.cpp:2406`): look the job up from the
child pid, drop the pid, decrement `running_jobs`, and complete the job. -/
def finalize_job (u : status_t) (now : Nat) (st : sched_state) (pid : Nat)
    (exit_ok : Bool) : sched_state × Option (List String) :=
  match st.job_pids pid with
  | none => (st, none)
  | some job_id =>
    complete_job u now
      { st with
          job_pids := fun p => if p = pid then none else st.job_pids p
          running_jobs := st.running_jobs - 1 }
      job_id exit_ok

/-- Concrete environment for exercising the deferred-rebuild flow:
target `"c"` has a dependency record with prerequisite `"d"`. -/
def env_c2 : env_t :=
  { fs := fun _ => none
    dependencies := fun t => if t = "c" then some ⟨["c"], ["d"]⟩ else none
    uninit := ⟨.Uptodate, 0⟩ }

/-- Status map describing the moment `handle_clients` decides to start
`"c"`: `get_status` has concluded `Recheck` for `"c"`, and the
prerequisite `"d"` has already been resolved to `Uptodate`. -/
def sm_c2 : StatusMap :=
  fun t =>
    if t = "c" then some ⟨.Recheck, 5⟩
    else if t = "d" then some ⟨.Uptodate, 3⟩
    else none

/-! ## `normalize` (remake.cpp:782-826) and `normalize_abs`
(remake.cpp:763-777)

Paths are modelled as `List Char` (the non-Windows build, where the only
delimiter is `'/'`). -/

/-- Split a path on `'/'`, producing the (possibly empty) runs between
delimiters, exactly as the scanning loop of `normalize` visits them. -/
def segsOf : List Char → List (List Char)
  | [] => [[]]
  | c :: cs =>
      if c = '/' then [] :: segsOf cs
      else
        match segsOf cs with
        | [] => [[c]]
        | t :: ts => (c :: t) :: ts

/-- The `.`/`..` collapsing loop of `normalize`: empty and `"."` segments
are dropped, `".."` pops the accumulator; on an empty accumulator `".."`
is dropped for an absolute path, while for a relative path the source
restarts on `working_dir + '/' + s`, signalled here by `none`.  The
accumulator holds the collapsed segments in reverse. -/
def collapse (absolute : Bool) :
    List (List Char) → List (List Char) → Option (List (List Char))
  | acc, [] => some acc.reverse
  | acc, seg :: rest =>
      if seg = [] then collapse absolute acc rest
      else if seg = ['.'] then collapse absolute acc rest
      else if seg = ['.', '.'] then
        match acc with
        | _ :: acc2 => collapse absolute acc2 rest
        | [] => if absolute then collapse absolute [] rest else none
      else collapse absolute (seg :: acc) rest

/-- Join segments with `'/'`. -/
def interJoin : List (List Char) → List Char
  | [] => []
  | [a] => a
  | a :: rest => a ++ '/' :: interJoin rest

/-- Largest index `i ≤ bound` with `s[i] = '/'` (`s.rfind('/', bound)`). -/
def rfindSlash (s : List Char) : Nat → Option Nat
  | 0 => if s.get? 0 = some '/' then some 0 else none
  | i + 1 => if s.get? (i + 1) = some '/' then some (i + 1) else rfindSlash s i

/-- Model of `normalize_abs` (`remake.cpp:763`): re-express an absolute path under
the working directory relative to it; other paths are returned unchanged.
The `assert` on `rfind` is modelled by returning `s` in the (unreachable
for an absolute working directory) `none` case. -/
def normalize_abs (wd s : List Char) : List Char :=
  if ¬ wd.isPrefixOf s then s
  else if s.length = wd.length then ['.']
  else if s.get? wd.length ≠ some '/' then
    match rfindSlash s wd.length with
    | some pos => s.drop (pos + 1)
    | none => s
  else if s.length = wd.length + 1 then ['.']
  else s.drop (wd.length + 1)

/-- Whether a path begins with `'/'` (the `absolute` flag of `normalize`,
which holds iff the first delimiter is at position 0). -/
def isAbsPath : List Char → Bool
  | [] => false
  | c :: _ => c = '/'

/-- A path segment that `collapse` can have pushed: nonempty, not `"."`,
not `".."`, and without `'/'`. -/
def CleanSeg (seg : List Char) : Prop :=
  seg ≠ [] ∧ seg ≠ ['.'] ∧ seg ≠ ['.', '.'] ∧ '/' ∉ seg

/-- Rebuild the path from the collapsed segments (`remake.cpp:814-825`):
an empty list gives `"/"` or `"."`, otherwise the segments joined by
`'/'`, with a leading `'/'` and a pass through `normalize_abs` for an
absolute path. -/
def normalize_finish (wd : List Char) (absolute : Bool)
    (segs : List (List Char)) : List Char :=
  match segs with
  | [] => if absolute then ['/'] else ['.']
  | _ :: _ =>
      if absolute then normalize_abs wd ('/' :: interJoin segs)
      else interJoin segs

/-- Model of `normalize` (`remake.cpp:782`): a string without `'/'` is returned
unchanged; otherwise the segments are collapsed; a relative path that
pops past its first segment is re-normalized as
`working_dir + '/' + s`, which is absolute whenever the working directory
is (the second `none` case is then unreachable and yields `[]`). -/
def normalize (wd s : List Char) : List Char :=
  if '/' ∉ s then s
  else
    match collapse (isAbsPath s) [] (segsOf s) with
    | some segs => normalize_finish wd (isAbsPath s) segs
    | none =>
      let s2 := wd ++ '/' :: s
      match collapse (isAbsPath s2) [] (segsOf s2) with
      | some segs => normalize_finish wd (isAbsPath s2) segs
      | none => []

/-! ## `accept_client` (remake.cpp:2321-2401)

The received message is the raw byte buffer left by the `recv` loop: four
bytes of little-endian job id followed by NUL-terminated target strings and
a final empty string. -/

/-- Decode the leading 4 bytes as a little-endian signed 32-bit integer
(the `memcpy(&job_id, &buf[0], sizeof(int))` of the source on a
little-endian host). -/
def decode_le (buf : List Nat) : Int :=
  let v : Nat := (buf.take 4).foldr (fun b acc => b % 256 + 256 * acc) 0
  if v < 2147483648 then (v : Int) else (v : Int) - 4294967296

/-- The `strlen` walk of `accept_client` (`remake.cpp:2387-2400`): collect
NUL-terminated strings until the empty string; `cur` is the segment read
so far in reverse, `acc` the completed segments in reverse. -/
def parse_targets_aux : List Nat → List Char → List (List Char) →
    List (List Char)
  | [], _, acc => acc.reverse
  | b :: rest, cur, acc =>
      if b = 0 then
        match cur with
        | [] => acc.reverse
        | _ => parse_targets_aux rest [] (cur.reverse :: acc)
      else parse_targets_aux rest (Char.ofNat b :: cur) acc

/-- The target strings of a request message body. -/
def parse_targets (bs : List Nat) : List (List Char) :=
  parse_targets_aux bs [] []

/-- The server-side state read and written by `accept_client`. -/
structure accept_state where
  job_targets : Int → Option (List String)
  dependencies : String → Option dependency_t

/-- Observable outcome of one `accept_client` call: the byte (if any) sent
back on the accepted connection, whether that connection was closed, the
client record (job id and pending list) left in the client list, the
updated dependency map, and the change to `waiting_jobs`. -/
structure accept_outcome where
  reply_byte : Option Nat
  conn_closed : Bool
  client : Option (Int × List String)
  dependencies : String → Option dependency_t
  waiting_delta : Nat

/-- Insertion (`std::set::insert`) into the modelled prerequisite list. -/
def dep_insert (ds : List String) (n : String) : List String :=
  if n ∈ ds then ds else ds ++ [n]

/-- Model of `accept_client` after the message has been received
(`remake.cpp:2375-2401`): an unknown job id is an ill-formed message — the
connection is closed with no reply byte and the client is erased;
otherwise every received target is pushed onto the client's pending list
and inserted into the dependency record of the job's first target
(`dependencies[...]` default-constructs a missing record), and
`waiting_jobs` is incremented. -/
def accept_client (st : accept_state) (buf : List Nat) : accept_outcome :=
  let job_id := decode_le buf
  match st.job_targets job_id with
  | none =>
      { reply_byte := none, conn_closed := true, client := none
        dependencies := st.dependencies, waiting_delta := 0 }
  | some tgts =>
      let first := tgts.headD ""
      let dep := (st.dependencies first).getD ⟨[], []⟩
      let names := (parse_targets (buf.drop 4)).map (fun l => String.mk l)
      { reply_byte := none, conn_closed := false
        client := some (job_id, names)
        dependencies := fun x =>
          if x = first then some ⟨dep.targets, names.foldl dep_insert dep.deps⟩
          else st.dependencies x
        waiting_delta := 1 }

/-! ## Word escaping (remake.cpp:712-742) and `read_word`
(remake.cpp:937-976). -/

/-- The `escaped_char` set of the escape writer: `"\"\\$!"`. -/
def escaped_char : List Char := ['"', '\\', '$', '!']

/-- The `quoted_char` set of the escape writer: `",: '"`. -/
def quoted_char : List Char := [',', ':', ' ', '\'']

/-- The separator set of `read_word`: `" \t\r\n:$(),=+\""`. -/
def word_separators : List Char :=
  [' ', '\t', '\r', '\n', ':', '$', '(', ')', ',', '=', '+', '"']

/-- The `need_quotes` computation of the escape writer: some character of
the word is in `escaped_char` or `quoted_char`. -/
def needs_quoting (s : List Char) : Bool :=
  s.any fun c => c ∈ escaped_char ∨ c ∈ quoted_char

/-- Model of `operator<<(std::ostream &, escape_string const &)`
(`remake.cpp:712`): a word containing none of the special characters is
written verbatim; otherwise it is written quoted, with every character of
`escaped_char` preceded by a backslash. -/
def escape_word (s : List Char) : List Char :=
  if needs_quoting s then
    '"' :: (s.flatMap fun c => if c ∈ escaped_char then ['\\', c] else [c])
      ++ ['"']
  else s

/-- The value `res += in.get()` appends when a quoted word ends in a lone
backslash at end of input: `(char)EOF`. -/
def eof_char : Char := Char.ofNat 255

/-- The quoted loop of `read_word`: a backslash escapes the next character,
an unescaped quote ends the word, end of input returns what was read. -/
def read_word_quoted (acc : List Char) : List Char → List Char × List Char
  | [] => (acc, [])
  | c :: rest =>
      if c = '\\' then
        match rest with
        | [] => (acc ++ [eof_char], [])
        | d :: rest2 => read_word_quoted (acc ++ [d]) rest2
      else if c = '"' then (acc, rest)
      else read_word_quoted (acc ++ [c]) rest

/-- The unquoted loop of `read_word`: read until a separator (which is
pushed back) or end of input. -/
def read_word_plain (acc : List Char) : List Char → List Char × List Char
  | [] => (acc, [])
  | c :: rest =>
      if c ∈ word_separators then (acc, c :: rest)
      else read_word_plain (acc ++ [c]) rest

/-- Model of `read_word` (`remake.cpp:937`): returns the word read and the input
left (the source reads from an `istream`; the unread suffix models the
putback). -/
def read_word : List Char → List Char × List Char
  | [] => ([], [])
  | c :: rest =>
      if c = '"' then read_word_quoted [] rest
      else if c ∈ word_separators then ([], c :: rest)
      else read_word_plain [c] rest

/-! ## `find_generic_rule` (remake.cpp:1607-1636) and
`substitute_pattern` (remake.cpp:1591-1600). -/

/-- A parsed rule, restricted to the fields `find_generic_rule` copies
(`rule.script`, `rule.targets`, `rule.deps`; local variable assignments
are not copied by the source). -/
structure rule_t where
  targets : List (List Char)
  deps : List (List Char)
  script : List Char
deriving DecidableEq, Repr

/-- Model of `substitute_pattern(pat, src, dst)`: replace the first `%` of each
string by `pat`; strings without `%` are copied unchanged. -/
def substitute_pattern (pat : List Char) (src : List (List Char)) :
    List (List Char) :=
  src.map fun i =>
    match List.findIdx? (fun c => c = '%') i with
    | none => i
    | some pos => i.take pos ++ pat ++ i.drop (pos + 1)

/-- The inner loop of `find_generic_rule` over one rule's target patterns:
skip patterns longer than the target, patterns that do not strictly
improve the current best substitution length `plen`, patterns without `%`,
and patterns whose prefix or suffix does not match; at the first surviving
pattern return its `%` position and substitution length (the source then
`break`s out of the loop). -/
def fgr_scan_targets (tlen : Nat) (target : List Char) (plen : Nat) :
    List (List Char) → Option (Nat × Nat)
  | [] => none
  | j :: js =>
      if tlen < j.length then fgr_scan_targets tlen target plen js
      else if plen ≤ tlen - (j.length - 1) then
        fgr_scan_targets tlen target plen js
      else
        match List.findIdx? (fun c => c = '%') j with
        | none => fgr_scan_targets tlen target plen js
        | some pos =>
            if j.take pos = target.take pos ∧
               j.drop (pos + 1) =
                 target.drop (tlen - (j.length - (pos + 1))) then
              some (pos, tlen - (j.length - 1))
            else fgr_scan_targets tlen target plen js

/-- The outer loop of `find_generic_rule`: fold over the generic rules in
declaration order, carrying the best substitution length and the best
substituted rule so far. -/
def find_generic_rule_aux (target : List Char) (tlen : Nat) :
    Nat → rule_t → List rule_t → rule_t
  | _, best, [] => best
  | plen, best, r :: rs =>
      match fgr_scan_targets tlen target plen r.targets with
      | none => find_generic_rule_aux target tlen plen best rs
      | some (pos, p) =>
          let pat := (target.drop pos).take p
          find_generic_rule_aux target tlen p
            { targets := substitute_pattern pat r.targets
              deps := substitute_pattern pat r.deps
              script := r.script } rs

/-- Model of `find_generic_rule(target)` (`remake.cpp:1607`): the best substitution
length starts at `len(target) + 1` and the best rule at the empty rule. -/
def find_generic_rule (rules : List rule_t) (target : List Char) : rule_t :=
  find_generic_rule_aux target target.length (target.length + 1)
    ⟨[], [], []⟩ rules

/-- A target pattern match as the spec words it (§4.5): a pattern `A%B`
matches `T` when `len(A)+len(B) ≤ len(T)` and `A`/`B` match `T`'s prefix
and suffix; the value is the substitution length
`p = len(T) - len(A) - len(B)`. -/
def spec_generic_match (j target : List Char) : Option Nat :=
  match List.findIdx? (fun c => c = '%') j with
  | none => none
  | some pos =>
      if j.length - 1 ≤ target.length ∧
         j.take pos = target.take pos ∧
         j.drop (pos + 1) =
           target.drop (target.length - (j.length - (pos + 1))) then
        some (target.length - (j.length - 1))
      else none

/-- The amended scan (spec §4.5 corrected to the source): within one rule,
the first pattern that contains `%`, has a nonempty stem
(`len(A)+len(B) < len(T)`), strictly improves the bound, and matches the
prefix and suffix. -/
def first_qualifying (target : List Char) (bound : Nat) :
    List (List Char) → Option (Nat × Nat)
  | [] => none
  | j :: js =>
      match List.findIdx? (fun c => c = '%') j with
      | none => first_qualifying target bound js
      | some pos =>
          if j.length - 1 < target.length ∧
             target.length - (j.length - 1) < bound ∧
             j.take pos = target.take pos ∧
             j.drop (pos + 1) =
               target.drop (target.length - (j.length - (pos + 1))) then
            some (pos, target.length - (j.length - 1))
          else first_qualifying target bound js

/-- The amended rule scan: generic rules in declaration order, each
contributing at most its first qualifying pattern, with strictly smaller
substitution lengths superseding the current best. -/
def amended_scan (target : List Char) :
    Option (Nat × rule_t) → List rule_t → Option (Nat × rule_t)
  | best, [] => best
  | best, r :: rs =>
      let bound := match best with
        | none => target.length + 1
        | some (p, _) => p
      match first_qualifying target bound r.targets with
      | none => amended_scan target best rs
      | some (pos, p) =>
          let pat := (target.drop pos).take p
          amended_scan target
            (some (p,
              { targets := substitute_pattern pat r.targets
                deps := substitute_pattern pat r.deps
                script := r.script })) rs

/-! ## Concrete instances used by the counterexamples and witnesses. -/

/-- A server with no known jobs. -/
def st_c6 : accept_state := ⟨fun _ => none, fun _ => none⟩

/-- A message with job id 99 and no targets. -/
def buf_c6 : List Nat := [99, 0, 0, 0, 0, 0]

/-- A server where job 0 builds target `"t"`. -/
def st_c3 : accept_state :=
  ⟨fun j => if j = 0 then some ["t"] else none, fun _ => none⟩

/-- A message from job 0 requesting the single target `"./a"`. -/
def buf_c3 : List Nat := [0, 0, 0, 0, 46, 47, 97, 0, 0]

/-- A message from job 0 requesting the single target `"b"`. -/
def buf_c3w : List Nat := [0, 0, 0, 0, 98, 0, 0]

/-- The generic rule `a%b: ;s`. -/
def rule_c4 : rule_t := ⟨["a%b".data], [], "s".data⟩

/-- Environment for the `get_status` witness: file `"a"` exists with
mtime 5 and has no dependency record. -/
def env_c1w : env_t :=
  ⟨fun t => if t = "a" then some 5 else none, fun _ => none, ⟨.Uptodate, 0⟩⟩

/-- The empty status map. -/
def sm_empty : StatusMap := fun _ => none

/-- Scheduler state for the job-failure witness: pid 7 runs job 3, which
declares targets `"x"` and `"y"`; both files exist. -/
def st_c9w : sched_state :=
  { status := fun t => if t = "x" then some ⟨.Running, 2⟩ else none
    fs := fun t => if t = "x" then some 4 else if t = "y" then some 6 else none
    job_targets := fun j => if j = 3 then some ["x", "y"] else none
    job_pids := fun p => if p = 7 then some 3 else none
    running_jobs := 1 }

end Remake

namespace Remake

/-! # Theorems

Helper lemmas first, then one named theorem (with witness or
counterexample where required) per claim. -/

/-! ## C10: `update_status` edge cases. -/

/-- C10: after a successful script, `update_status` keeps status `Remade`
when the recorded mtime is at or after startup, without consulting the
filesystem; a missing file still yields `Remade` with last 0; a changed
mtime yields `Remade` with the new mtime; and only an unchanged mtime
strictly older than startup is downgraded to `Uptodate`. -/
theorem update_status_edge_cases (fs : String → Option Nat) (now : Nat)
    (t : String) (ts : status_t) :
    (now ≤ ts.last →
        update_status fs now t ts = ⟨.Remade, ts.last⟩ ∧
        ∀ fs', update_status fs' now t ts = update_status fs now t ts)
  ∧ (ts.last < now → fs t = none → update_status fs now t ts = ⟨.Remade, 0⟩)
  ∧ (∀ m, ts.last < now → fs t = some m → m ≠ ts.last →
        update_status fs now t ts = ⟨.Remade, m⟩)
  ∧ (∀ m, ts.last < now → fs t = some m → m = ts.last →
        update_status fs now t ts = ⟨.Uptodate, ts.last⟩)
  ∧ ((update_status fs now t ts).status = .Uptodate →
        ts.last < now ∧ fs t = some ts.last) := by
  refine ⟨?_, ?_, ?_, ?_, ?_⟩
  · intro h
    constructor
    · simp [update_status, h]
    · intro fs'
      simp [update_status, h]
  · intro h hfs
    simp [update_status, Nat.not_le_of_lt h, hfs]
  · intro m h hfs hm
    simp [update_status, Nat.not_le_of_lt h, hfs, hm]
  · intro m h hfs hm
    simp [update_status, Nat.not_le_of_lt h, hfs, hm]
  · intro h
    by_cases hn : now ≤ ts.last
    · simp [update_status, hn] at h
    · refine ⟨Nat.lt_of_not_le hn, ?_⟩
      cases hfs : fs t with
      | none => simp [update_status, hn, hfs] at h
      | some m =>
        by_cases hm : m = ts.last
        · exact congrArg some hm
        · simp [update_status, hn, hfs, hm] at h

/-- Witness for C10 at concrete inputs: recorded mtime 10 at startup 7 is
kept `Remade` whatever the filesystem says. -/
theorem update_status_edge_cases_witness :
    (7 ≤ (⟨.Running, 10⟩ : status_t).last) ∧
    (update_status (fun _ => some 3) 7 "x" ⟨.Running, 10⟩ = ⟨.Remade, 10⟩ ∧
      ∀ fs', update_status fs' 7 "x" ⟨.Running, 10⟩ =
        update_status (fun _ => some 3) 7 "x" ⟨.Running, 10⟩) :=
  ⟨by decide,
    (update_status_edge_cases (fun _ => some 3) 7 "x" ⟨.Running, 10⟩).1
      (by decide)⟩

/-! ## C5: the argument vector `run_script` passes to the shell. -/

/-- C5 (code bug): the `argv` handed to `execv("/bin/sh", ...)` carries
only the flags `sh -e -s` (plus `-v` when echoing) and never the rule's
target names, although the source's own documentation says the positional
parameters `$1`, `$2`, ... hold the target names. -/
theorem run_script_argv_lacks_targets :
    (∀ echo, shell_argv echo = ["sh", "-e", "-s"] ∨
        shell_argv echo = ["sh", "-e", "-s", "-v"])
  ∧ "out.txt" ∉ shell_argv false
  ∧ "out.txt" ∉ shell_argv true := by
  decide

/-! ## C2: `still_need_rebuild` and the deferred-script decision. -/

/-- C2 (code bug): target `"c"` had status `Recheck` and its only
prerequisite `"d"` resolved to `Uptodate`, yet because `start` marked
`"c"` as `Running` before creating the dependency client,
`still_need_rebuild` no longer sees `Recheck` and the deferred script is
run anyway, contradicting the claimed downgrade-and-skip. -/
theorem still_need_rebuild_runs_script_despite_uptodate_deps :
    sm_c2 "c" = some ⟨.Recheck, 5⟩
  ∧ env_c2.dependencies "c" = some ⟨["c"], ["d"]⟩
  ∧ (∀ k ∈ ["d"], ((sm_c2 k).getD env_c2.uninit).status = .Uptodate)
  ∧ (complete_request_delayed env_c2
      (start_mark_running env_c2 sm_c2 ["c"]) ["c"] true).1 = .run
  ∧ (still_need_rebuild env_c2 sm_c2 "c").1 = false := by
  decide

/-! ## C9: job failure cleanup. -/

theorem foldl_remove_file_preserve (l : List String)
    (fs : String → Option Nat) (t : String) (h : fs t = none) :
    l.foldl remove_file fs t = none := by
  induction l generalizing fs with
  | nil => exact h
  | cons a l ih =>
    simp only [List.foldl_cons]
    apply ih
    by_cases hta : t = a <;> simp [remove_file, hta, h]

theorem foldl_remove_file_mem (l : List String)
    (fs : String → Option Nat) (t : String) (h : t ∈ l) :
    l.foldl remove_file fs t = none := by
  induction l generalizing fs with
  | nil => cases h
  | cons a l ih =>
    simp only [List.foldl_cons]
    rcases List.mem_cons.mp h with rfl | hmem
    · by_cases hl : t ∈ l
      · exact ih _ hl
      · apply foldl_remove_file_preserve
        simp [remove_file]
    · exact ih _ hmem

/-- One step of the per-target failure marking of `complete_job`. -/
theorem fail_mark_step (u : status_t) (sm : StatusMap) (a t : String)
    (h : ∃ v, sm t = some v ∧ v.status = .Failed) :
    ∃ v, smUpd sm a ⟨.Failed, ((sm a).getD u).last⟩ t = some v ∧
      v.status = .Failed := by
  by_cases ha : t = a
  · subst ha
    exact ⟨_, smUpd_same _ _ _, rfl⟩
  · rw [smUpd_other _ _ _ _ ha]
    exact h

theorem foldl_fail_mark_preserve (u : status_t) (l : List String)
    (sm : StatusMap) (t : String)
    (h : ∃ v, sm t = some v ∧ v.status = .Failed) :
    ∃ v, (l.foldl
        (fun sm t => smUpd sm t ⟨.Failed, ((sm t).getD u).last⟩) sm) t =
      some v ∧ v.status = .Failed := by
  induction l generalizing sm with
  | nil => exact h
  | cons a l ih =>
    simp only [List.foldl_cons]
    exact ih _ (fail_mark_step u sm a t h)

theorem foldl_fail_mark_mem (u : status_t) (l : List String)
    (sm : StatusMap) (t : String) (h : t ∈ l) :
    ∃ v, (l.foldl
        (fun sm t => smUpd sm t ⟨.Failed, ((sm t).getD u).last⟩) sm) t =
      some v ∧ v.status = .Failed := by
  induction l generalizing sm with
  | nil => cases h
  | cons a l ih =>
    simp only [List.foldl_cons]
    rcases List.mem_cons.mp h with rfl | hmem
    · by_cases hl : t ∈ l
      · exact ih _ hl
      · exact foldl_fail_mark_preserve u l _ t ⟨_, smUpd_same _ _ _, rfl⟩
    · exact ih _ hmem

/-- C9: when a job's shell exits unsuccessfully, every declared target is
marked `Failed`, its partial output file is deleted (so the next run stats
it as missing), the single failure line names all siblings, and
`running_jobs` is decremented. -/
theorem complete_job_failure_cleanup (u : status_t) (now : Nat)
    (st : sched_state) (pid : Nat) (job_id : Int) (tgts : List String)
    (hpid : st.job_pids pid = some job_id)
    (hjt : st.job_targets job_id = some tgts) :
    (∀ t ∈ tgts, ∃ v,
        (finalize_job u now st pid false).1.status t = some v ∧
        v.status = .Failed)
  ∧ (∀ t ∈ tgts, (finalize_job u now st pid false).1.fs t = none)
  ∧ (finalize_job u now st pid false).2 = some tgts
  ∧ (finalize_job u now st pid false).1.running_jobs =
      st.running_jobs - 1 := by
  have hres : finalize_job u now st pid false =
      ({ st with
          status := tgts.foldl
            (fun sm t => smUpd sm t ⟨.Failed, ((sm t).getD u).last⟩) st.status
          fs := tgts.foldl remove_file st.fs
          job_targets := fun j => if j = job_id then none else st.job_targets j
          job_pids := fun p => if p = pid then none else st.job_pids p
          running_jobs := st.running_jobs - 1 },
        some tgts) := by
    simp only [finalize_job, hpid, complete_job, hjt, Bool.false_eq_true,
      if_false]
  rw [hres]
  refine ⟨?_, ?_, rfl, rfl⟩
  · intro t ht
    exact foldl_fail_mark_mem u tgts st.status t ht
  · intro t ht
    exact foldl_remove_file_mem tgts st.fs t ht

/-- Witness for C9: pid 7 (job 3, targets `"x"`, `"y"`) fails; both files
are gone, both statuses are `Failed`, and the failure line names both. -/
theorem complete_job_failure_cleanup_witness :
    (st_c9w.job_pids 7 = some 3 ∧ st_c9w.job_targets 3 = some ["x", "y"]) ∧
    ((∀ t ∈ ["x", "y"], ∃ v,
        (finalize_job ⟨.Uptodate, 0⟩ 9 st_c9w 7 false).1.status t = some v ∧
        v.status = .Failed)
    ∧ (∀ t ∈ ["x", "y"],
        (finalize_job ⟨.Uptodate, 0⟩ 9 st_c9w 7 false).1.fs t = none)
    ∧ (finalize_job ⟨.Uptodate, 0⟩ 9 st_c9w 7 false).2 = some ["x", "y"]
    ∧ (finalize_job ⟨.Uptodate, 0⟩ 9 st_c9w 7 false).1.running_jobs =
        st_c9w.running_jobs - 1) :=
  ⟨⟨by decide, by decide⟩,
    complete_job_failure_cleanup ⟨.Uptodate, 0⟩ 9 st_c9w 7 3 ["x", "y"]
      (by decide) (by decide)⟩

/-! ## C6: `accept_client` message handling. -/

theorem dep_insert_superset (ds : List String) (m n : String)
    (h : n ∈ ds) : n ∈ dep_insert ds m := by
  unfold dep_insert
  split
  · exact h
  · exact List.mem_append_left _ h

theorem mem_foldl_dep_insert_of_mem (l : List String) (ds : List String)
    (n : String) (h : n ∈ ds) : n ∈ l.foldl dep_insert ds := by
  induction l generalizing ds with
  | nil => exact h
  | cons a l ih =>
    simp only [List.foldl_cons]
    exact ih _ (dep_insert_superset ds a n h)

theorem mem_foldl_dep_insert (l : List String) (ds : List String)
    (n : String) (h : n ∈ l) : n ∈ l.foldl dep_insert ds := by
  induction l generalizing ds with
  | nil => cases h
  | cons a l ih =>
    simp only [List.foldl_cons]
    rcases List.mem_cons.mp h with rfl | hmem
    · apply mem_foldl_dep_insert_of_mem
      unfold dep_insert
      split
      · assumption
      · exact List.mem_append_right _ (List.mem_singleton.mpr rfl)
    · exact ih _ hmem

/-- C6 counterexample: a message whose leading 4-byte job id (99) is not a
known job is answered by closing the connection and erasing the client;
no reply byte — in particular not the failure byte 0 — is ever sent on
that connection. -/
theorem accept_client_unknown_job_sends_no_reply :
    st_c6.job_targets (decode_le buf_c6) = none
  ∧ (accept_client st_c6 buf_c6).reply_byte = none
  ∧ (accept_client st_c6 buf_c6).reply_byte ≠ some 0
  ∧ (accept_client st_c6 buf_c6).conn_closed = true
  ∧ (accept_client st_c6 buf_c6).client = none := by
  refine ⟨rfl, ?_, ?_, ?_, ?_⟩ <;> decide

/-- C6 amended: an unknown job id closes the connection without any reply
byte (the client sees the failure from the closed socket) and leaves the
dependency map unchanged; for a known job, each received target is
appended to the new client's pending list and inserted into the
dependency set of the job's first target's record, and `waiting_jobs` is
incremented by one. -/
theorem accept_client_message_handling (st : accept_state)
    (buf : List Nat) :
    (st.job_targets (decode_le buf) = none →
        (accept_client st buf).reply_byte = none
      ∧ (accept_client st buf).conn_closed = true
      ∧ (accept_client st buf).client = none
      ∧ (accept_client st buf).waiting_delta = 0
      ∧ (accept_client st buf).dependencies = st.dependencies)
  ∧ (∀ tgts, st.job_targets (decode_le buf) = some tgts →
        (accept_client st buf).client =
          some (decode_le buf,
            (parse_targets (buf.drop 4)).map (fun l => String.mk l))
      ∧ (accept_client st buf).waiting_delta = 1
      ∧ (accept_client st buf).reply_byte = none
      ∧ (accept_client st buf).conn_closed = false
      ∧ ∀ n ∈ (parse_targets (buf.drop 4)).map (fun l => String.mk l),
          n ∈ (((accept_client st buf).dependencies (tgts.headD "")).getD
            ⟨[], []⟩).deps) := by
  constructor
  · intro h
    simp [accept_client, h]
  · intro tgts h
    refine ⟨?_, ?_, ?_, ?_, ?_⟩
    · simp [accept_client, h]
    · simp [accept_client, h]
    · simp [accept_client, h]
    · simp [accept_client, h]
    · intro n hn
      have hr : (accept_client st buf).dependencies (tgts.headD "") =
          some ⟨((st.dependencies (tgts.headD "")).getD ⟨[], []⟩).targets,
            ((parse_targets (buf.drop 4)).map (fun l => String.mk l)).foldl
              dep_insert
              ((st.dependencies (tgts.headD "")).getD ⟨[], []⟩).deps⟩ := by
        simp [accept_client, h]
      rw [hr]
      exact mem_foldl_dep_insert _ _ _ hn

/-- Witness for C6 at a concrete message: job 0 requests target `"b"`. -/
theorem accept_client_message_handling_witness :
    (st_c3.job_targets (decode_le buf_c3w) = some ["t"]) ∧
    ((accept_client st_c3 buf_c3w).client =
        some (decode_le buf_c3w,
          (parse_targets (buf_c3w.drop 4)).map (fun l => String.mk l))
    ∧ (accept_client st_c3 buf_c3w).waiting_delta = 1
    ∧ (accept_client st_c3 buf_c3w).reply_byte = none
    ∧ (accept_client st_c3 buf_c3w).conn_closed = false
    ∧ ∀ n ∈ (parse_targets (buf_c3w.drop 4)).map (fun l => String.mk l),
        n ∈ (((accept_client st_c3 buf_c3w).dependencies
          (["t"].headD "")).getD ⟨[], []⟩).deps) :=
  ⟨by decide, (accept_client_message_handling st_c3 buf_c3w).2 ["t"]
    (by decide)⟩

/-! ## C3: normalization of targets received over the socket. -/

/-- C3 counterexample: the target string `"./a"` received over the socket
is appended to the client's pending list verbatim, although
`normalize("./a")` is `"a"`; `accept_client` applies no normalization. -/
theorem accept_client_does_not_normalize :
    (accept_client st_c3 buf_c3).client = some (0, ["./a"])
  ∧ normalize "/w".data "./a".data = "a".data
  ∧ ("./a" : String) ≠ "a" := by
  refine ⟨?_, ?_, ?_⟩ <;> decide

/-- C3 amended: the names entering the pending list from a socket message
are exactly the received strings, unchanged (the normalization of CLI
targets happens in `main`, before a client sends them). -/
theorem accept_client_appends_received_string (st : accept_state)
    (buf : List Nat) (tgts : List String)
    (h : st.job_targets (decode_le buf) = some tgts) :
    ((accept_client st buf).client.map Prod.snd) =
      some ((parse_targets (buf.drop 4)).map (fun l => String.mk l)) := by
  simp [accept_client, h]

/-- Witness for C3 amended at the `"./a"` message: the pending list holds
the string `"./a"` exactly as received. -/
theorem accept_client_appends_received_string_witness :
    (st_c3.job_targets (decode_le buf_c3) = some ["t"]) ∧
    ((accept_client st_c3 buf_c3).client.map Prod.snd) =
      some ((parse_targets (buf_c3.drop 4)).map (fun l => String.mk l)) :=
  ⟨by decide, accept_client_appends_received_string st_c3 buf_c3 ["t"]
    (by decide)⟩

/-! ## C7: escaping followed by `read_word`. -/

theorem read_word_quoted_cons (acc : List Char) (c : Char)
    (rest : List Char) :
    read_word_quoted acc (c :: rest) =
      if c = '\\' then
        match rest with
        | [] => (acc ++ [eof_char], [])
        | d :: rest2 => read_word_quoted (acc ++ [d]) rest2
      else if c = '"' then (acc, rest)
      else read_word_quoted (acc ++ [c]) rest := by
  rw [read_word_quoted.eq_def]

theorem read_word_plain_cons (acc : List Char) (c : Char)
    (rest : List Char) :
    read_word_plain acc (c :: rest) =
      if c ∈ word_separators then (acc, c :: rest)
      else read_word_plain (acc ++ [c]) rest := by
  rw [read_word_plain.eq_def]

theorem read_word_cons (c : Char) (rest : List Char) :
    read_word (c :: rest) =
      if c = '"' then read_word_quoted [] rest
      else if c ∈ word_separators then ([], c :: rest)
      else read_word_plain [c] rest := by
  rw [read_word.eq_def]

/-- Reading back the quoted, escaped form of a word recovers it whole. -/
theorem read_word_quoted_escaped (s : List Char) (acc : List Char) :
    read_word_quoted acc
      ((s.flatMap fun c => if c ∈ escaped_char then ['\\', c] else [c])
        ++ ['"']) = (acc ++ s, []) := by
  induction s generalizing acc with
  | nil =>
    simp [read_word_quoted_cons]
  | cons c cs ih =>
    by_cases hc : c ∈ escaped_char
    · have hsplit :
          ((c :: cs).flatMap
              fun x => if x ∈ escaped_char then ['\\', x] else [x]) ++ ['"'] =
            '\\' :: c ::
              ((cs.flatMap
                fun x => if x ∈ escaped_char then ['\\', x] else [x])
                ++ ['"']) := by
        simp [List.flatMap_cons, hc]
      rw [hsplit, read_word_quoted_cons, if_pos rfl]
      show read_word_quoted (acc ++ [c])
          ((cs.flatMap fun x => if x ∈ escaped_char then ['\\', x] else [x])
            ++ ['"']) = _
      rw [ih (acc ++ [c])]
      simp
    · have hbs : c ≠ '\\' := by
        intro he
        exact hc (he ▸ (by decide : '\\' ∈ escaped_char))
      have hq : c ≠ '"' := by
        intro he
        exact hc (he ▸ (by decide : '"' ∈ escaped_char))
      have hsplit :
          ((c :: cs).flatMap
              fun x => if x ∈ escaped_char then ['\\', x] else [x]) ++ ['"'] =
            c :: ((cs.flatMap
                fun x => if x ∈ escaped_char then ['\\', x] else [x])
                ++ ['"']) := by
        simp [List.flatMap_cons, hc]
      rw [hsplit, read_word_quoted_cons, if_neg hbs, if_neg hq]
      rw [ih (acc ++ [c])]
      simp

/-- Reading an unquoted run of non-separator characters consumes it all. -/
theorem read_word_plain_all (s : List Char) (acc : List Char)
    (h : ∀ c ∈ s, c ∉ word_separators) :
    read_word_plain acc s = (acc ++ s, []) := by
  induction s generalizing acc with
  | nil => simp [read_word_plain]
  | cons c cs ih =>
    rw [read_word_plain_cons]
    rw [if_neg (h c (List.mem_cons_self c cs))]
    rw [ih (acc ++ [c]) (fun d hd => h d (List.mem_cons_of_mem c hd))]
    simp

/-- C7 counterexample: `"a(b"` is a word the parser can produce (from the
quoted input `"a(b"`), but writing it through the escape writer emits it
unquoted and `read_word` then stops at `'('`, returning only `"a"`. -/
theorem escape_read_word_not_inverse :
    read_word "\"a(b\"".data = ("a(b".data, [])
  ∧ escape_word "a(b".data = "a(b".data
  ∧ read_word (escape_word "a(b".data) = ("a".data, "(b".data)
  ∧ "a".data ≠ "a(b".data := by
  refine ⟨?_, ?_, ?_, ?_⟩ <;> decide

/-- C7 amended: escaping then reading yields the original word whenever
the word contains a character of the escaped or quoted sets (it is then
written quoted, which always round-trips), or contains no `read_word`
separator at all (it is then written verbatim and read back whole).  The
round trip fails exactly for words containing a separator outside those
sets — one of tab, CR, LF, `(`, `)`, `=`, `+` — and no quote-forcing
character. -/
theorem escape_read_word_round_trip (s : List Char)
    (h : (∃ c ∈ s, c ∈ escaped_char ∨ c ∈ quoted_char) ∨
         (∀ c ∈ s, c ∉ word_separators)) :
    read_word (escape_word s) = (s, []) := by
  by_cases hany : needs_quoting s = true
  · rw [escape_word, if_pos hany]
    rw [List.cons_append, read_word_cons, if_pos rfl]
    have := read_word_quoted_escaped s []
    simpa using this
  · have hsep : ∀ c ∈ s, c ∉ word_separators := by
      rcases h with ⟨c, hc, hcs⟩ | hsep
      · exact absurd
          (List.any_eq_true.mpr ⟨c, hc, by simpa using hcs⟩) hany
      · exact hsep
    rw [escape_word, if_neg hany]
    cases s with
    | nil => rfl
    | cons c cs =>
      have hq : c ≠ '"' := by
        intro he
        exact hsep c (List.mem_cons_self c cs)
          (he ▸ (by decide : ('"' : Char) ∈ word_separators))
      rw [read_word_cons]
      rw [if_neg hq, if_neg (hsep c (List.mem_cons_self c cs))]
      have := read_word_plain_all cs [c]
        (fun d hd => hsep d (List.mem_cons_of_mem c hd))
      simpa using this

/-- Witness for C7 amended: `"a b"` contains a quote-forcing space and
round-trips. -/
theorem escape_read_word_round_trip_witness :
    ((∃ c ∈ "a b".data, c ∈ escaped_char ∨ c ∈ quoted_char) ∨
      (∀ c ∈ "a b".data, c ∉ word_separators)) ∧
    read_word (escape_word "a b".data) = ("a b".data, []) :=
  ⟨Or.inl ⟨' ', by decide, by decide⟩,
    escape_read_word_round_trip "a b".data
      (Or.inl ⟨' ', by decide, by decide⟩)⟩

/-! ## C4: generic rule selection. -/

/-- C4 counterexample: the spec's matching admits the empty stem
(`len(A)+len(B) ≤ len(T)`), so for target `"ab"` the rule `a%b:` matches
with substitution length 0 and the claim requires
`find_generic_rule` to return that rule with targets `["ab"]`; the source
requires `len(pattern) ≤ len(T)`, i.e. a nonempty stem, and returns the
empty rule instead. -/
theorem find_generic_rule_misses_spec_match :
    spec_generic_match "a%b".data "ab".data = some 0
  ∧ substitute_pattern [] ["a%b".data] = ["ab".data]
  ∧ find_generic_rule [rule_c4] "ab".data = ⟨[], [], []⟩
  ∧ (find_generic_rule [rule_c4] "ab".data).targets ≠ ["ab".data] := by
  refine ⟨?_, ?_, ?_, ?_⟩ <;> decide

/-- The target-pattern loop of `find_generic_rule` agrees with the
amended qualification test: a pattern qualifies iff it contains `%`, its
literal part is strictly shorter than the target (nonempty stem), its
substitution length strictly improves the bound, and its prefix and
suffix match. -/
theorem fgr_scan_targets_eq_first_qualifying (target : List Char) :
    ∀ (js : List (List Char)) (plen : Nat),
      fgr_scan_targets target.length target plen js =
        first_qualifying target plen js := by
  intro js
  induction js with
  | nil => intro plen; rfl
  | cons j js ih =>
    intro plen
    rw [fgr_scan_targets, first_qualifying]
    cases hfind : List.findIdx? (fun c => c = '%') j with
    | none =>
      simp only [hfind]
      split
      · exact ih plen
      · split
        · exact ih plen
        · exact ih plen
    | some pos =>
      have hpos : pos < j.length := by
        have := List.findIdx?_eq_some_iff_findIdx_eq.mp hfind
        exact this.1
      have hlen1 : 1 ≤ j.length := Nat.lt_of_le_of_lt (Nat.zero_le _) hpos
      simp only [hfind]
      by_cases h1 : target.length < j.length
      · rw [if_pos h1]
        have hno : ¬ (j.length - 1 < target.length ∧
            target.length - (j.length - 1) < plen ∧
            j.take pos = target.take pos ∧
            j.drop (pos + 1) =
              target.drop (target.length - (j.length - (pos + 1)))) := by
          rintro ⟨hlt, -, -, -⟩
          omega
        rw [if_neg hno]
        exact ih plen
      · rw [if_neg h1]
        by_cases h2 : plen ≤ target.length - (j.length - 1)
        · rw [if_pos h2]
          have hno : ¬ (j.length - 1 < target.length ∧
              target.length - (j.length - 1) < plen ∧
              j.take pos = target.take pos ∧
              j.drop (pos + 1) =
                target.drop (target.length - (j.length - (pos + 1)))) := by
            rintro ⟨-, hlt, -, -⟩
            omega
          rw [if_neg hno]
          exact ih plen
        · rw [if_neg h2]
          by_cases h3 : j.take pos = target.take pos ∧
              j.drop (pos + 1) =
                target.drop (target.length - (j.length - (pos + 1)))
          · rw [if_pos h3]
            have hyes : j.length - 1 < target.length ∧
                target.length - (j.length - 1) < plen ∧
                j.take pos = target.take pos ∧
                j.drop (pos + 1) =
                  target.drop (target.length - (j.length - (pos + 1))) := by
              refine ⟨by omega, by omega, h3.1, h3.2⟩
            rw [if_pos hyes]
          · rw [if_neg h3]
            have hno : ¬ (j.length - 1 < target.length ∧
                target.length - (j.length - 1) < plen ∧
                j.take pos = target.take pos ∧
                j.drop (pos + 1) =
                  target.drop (target.length - (j.length - (pos + 1)))) := by
              rintro ⟨-, -, ha, hb⟩
              exact h3 ⟨ha, hb⟩
            rw [if_neg hno]
            exact ih plen

/-- The rule loop of `find_generic_rule` agrees with the amended scan,
relating the sentinel `plen = len(T) + 1` / empty best rule to an absent
best candidate. -/
theorem fgr_aux_eq_amended_scan (target : List Char) :
    ∀ (rs : List rule_t) (best : Option (Nat × rule_t)),
      find_generic_rule_aux target target.length
        (match best with | none => target.length + 1 | some (p, _) => p)
        (match best with | none => ⟨[], [], []⟩ | some (_, r) => r) rs =
      (match amended_scan target best rs with
        | none => (⟨[], [], []⟩ : rule_t)
        | some (_, r) => r) := by
  intro rs
  induction rs with
  | nil =>
    intro best
    cases best with
    | none => rfl
    | some pr => rfl
  | cons r rs ih =>
    intro best
    rw [find_generic_rule_aux, amended_scan.eq_def]
    rw [fgr_scan_targets_eq_first_qualifying]
    cases hq : first_qualifying target
        (match best with | none => target.length + 1 | some (p, _) => p)
        r.targets with
    | none =>
      cases best with
      | none => simpa [hq] using ih none
      | some pr => simpa [hq] using ih (some pr)
    | some pp =>
      cases best with
      | none =>
        simpa [hq] using ih (some (pp.2,
          { targets := substitute_pattern ((target.drop pp.1).take pp.2)
              r.targets
            deps := substitute_pattern ((target.drop pp.1).take pp.2) r.deps
            script := r.script }))
      | some pr =>
        simpa [hq] using ih (some (pp.2,
          { targets := substitute_pattern ((target.drop pp.1).take pp.2)
              r.targets
            deps := substitute_pattern ((target.drop pp.1).take pp.2) r.deps
            script := r.script }))

/-- C4 amended: `find_generic_rule` performs a left-to-right scan over the
generic rules in declaration order where each rule contributes at most its
first target pattern `A%B` with a nonempty stem
(`len(A)+len(B) < len(T)`), matching prefix and suffix, and a substitution
length `p = len(T)-len(A)-len(B)` strictly smaller than the best so far
(so earlier rules win ties); the returned rule is the last improvement,
with `%` replaced by the matched stem in targets and prerequisites, or the
empty rule when no rule qualifies. -/
theorem find_generic_rule_eq_amended_scan (rules : List rule_t)
    (target : List Char) :
    find_generic_rule rules target =
      (match amended_scan target none rules with
        | none => (⟨[], [], []⟩ : rule_t)
        | some (_, r) => r) :=
  fgr_aux_eq_amended_scan target rules none

/-! ## C8: idempotence of `normalize`. -/

theorem segsOf_ne_nil (s : List Char) : segsOf s ≠ [] := by
  cases s with
  | nil => simp [segsOf]
  | cons c cs =>
    rw [segsOf]
    split
    · simp
    · cases segsOf cs <;> simp

theorem segsOf_slash_free (a : List Char) (h : '/' ∉ a) :
    segsOf a = [a] := by
  induction a with
  | nil => rfl
  | cons c cs ih =>
    have hc : ¬ c = '/' := by
      intro he
      exact h (he ▸ List.mem_cons_self c cs)
    have hcs : '/' ∉ cs := fun hm => h (List.mem_cons_of_mem c hm)
    rw [segsOf, if_neg hc, ih hcs]

theorem segsOf_append_slash (a t : List Char) (h : '/' ∉ a) :
    segsOf (a ++ '/' :: t) = a :: segsOf t := by
  induction a with
  | nil =>
    simp only [List.nil_append]
    rw [segsOf, if_pos rfl]
  | cons c cs ih =>
    have hc : ¬ c = '/' := by
      intro he
      exact h (he ▸ List.mem_cons_self c cs)
    have hcs : '/' ∉ cs := fun hm => h (List.mem_cons_of_mem c hm)
    rw [List.cons_append, segsOf, if_neg hc, ih hcs]

theorem segsOf_mem_slash_free (s : List Char) :
    ∀ seg ∈ segsOf s, '/' ∉ seg := by
  induction s with
  | nil =>
    intro seg hseg
    simp [segsOf] at hseg
    simp [hseg]
  | cons c cs ih =>
    intro seg hseg
    rw [segsOf] at hseg
    by_cases hc : c = '/'
    · rw [if_pos hc] at hseg
      rcases List.mem_cons.mp hseg with rfl | hm
      · simp
      · exact ih seg hm
    · rw [if_neg hc] at hseg
      cases hcs : segsOf cs with
      | nil => exact absurd hcs (segsOf_ne_nil cs)
      | cons t ts =>
        rw [hcs] at hseg
        rcases List.mem_cons.mp hseg with rfl | hm
        · intro hmem
          rcases List.mem_cons.mp hmem with he | hml
          · exact hc he.symm
          · exact ih t (hcs ▸ List.mem_cons_self t ts) hml
        · exact ih seg (hcs ▸ List.mem_cons_of_mem t hm)

theorem collapse_cons (abs : Bool) (acc : List (List Char))
    (seg : List Char) (rest : List (List Char)) :
    collapse abs acc (seg :: rest) =
      if seg = [] then collapse abs acc rest
      else if seg = ['.'] then collapse abs acc rest
      else if seg = ['.', '.'] then
        match acc with
        | _ :: acc2 => collapse abs acc2 rest
        | [] => if abs then collapse abs [] rest else none
      else collapse abs (seg :: acc) rest := by
  rw [collapse.eq_def]

theorem collapse_clean (abs : Bool) (segs : List (List Char))
    (h : ∀ seg ∈ segs, CleanSeg seg) :
    ∀ acc, collapse abs acc segs = some (acc.reverse ++ segs) := by
  induction segs with
  | nil => intro acc; simp [collapse]
  | cons seg rest ih =>
    intro acc
    obtain ⟨h1, h2, h3, -⟩ := h seg (List.mem_cons_self seg rest)
    rw [collapse_cons, if_neg h1, if_neg h2, if_neg h3]
    rw [ih (fun x hx => h x (List.mem_cons_of_mem seg hx)) (seg :: acc)]
    simp

theorem collapse_output_clean (abs : Bool) :
    ∀ (segs : List (List Char)) (acc : List (List Char))
      (out : List (List Char)),
      (∀ x ∈ acc, CleanSeg x) → (∀ seg ∈ segs, '/' ∉ seg) →
      collapse abs acc segs = some out → ∀ x ∈ out, CleanSeg x := by
  intro segs
  induction segs with
  | nil =>
    intro acc out hacc _ hout x hx
    simp only [collapse] at hout
    cases hout
    exact hacc x (List.mem_reverse.mp hx)
  | cons seg rest ih =>
    intro acc out hacc hsf hout x hx
    have hsf' : ∀ s ∈ rest, '/' ∉ s :=
      fun s hs => hsf s (List.mem_cons_of_mem seg hs)
    rw [collapse_cons] at hout
    by_cases h1 : seg = []
    · rw [if_pos h1] at hout
      exact ih acc out hacc hsf' hout x hx
    · rw [if_neg h1] at hout
      by_cases h2 : seg = ['.']
      · rw [if_pos h2] at hout
        exact ih acc out hacc hsf' hout x hx
      · rw [if_neg h2] at hout
        by_cases h3 : seg = ['.', '.']
        · rw [if_pos h3] at hout
          cases acc with
          | nil =>
            cases abs with
            | true =>
              simp only [if_pos] at hout
              exact ih [] out (by simp) hsf' hout x hx
            | false => simp at hout
          | cons a acc2 =>
            exact ih acc2 out
              (fun y hy => hacc y (List.mem_cons_of_mem a hy)) hsf' hout x hx
        · rw [if_neg h3] at hout
          have hclean : CleanSeg seg :=
            ⟨h1, h2, h3, hsf seg (List.mem_cons_self seg rest)⟩
          refine ih (seg :: acc) out ?_ hsf' hout x hx
          intro y hy
          rcases List.mem_cons.mp hy with rfl | hm
          · exact hclean
          · exact hacc y hm

theorem collapse_absolute_total :
    ∀ (segs : List (List Char)) (acc : List (List Char)),
      ∃ out, collapse true acc segs = some out := by
  intro segs
  induction segs with
  | nil => intro acc; exact ⟨acc.reverse, rfl⟩
  | cons seg rest ih =>
    intro acc
    rw [collapse_cons]
    by_cases h1 : seg = []
    · rw [if_pos h1]; exact ih acc
    · rw [if_neg h1]
      by_cases h2 : seg = ['.']
      · rw [if_pos h2]; exact ih acc
      · rw [if_neg h2]
        by_cases h3 : seg = ['.', '.']
        · rw [if_pos h3]
          cases acc with
          | nil => simpa using ih []
          | cons a acc2 => exact ih acc2
        · rw [if_neg h3]; exact ih (seg :: acc)

theorem interJoin_cons₂ (a b : List Char) (rest : List (List Char)) :
    interJoin (a :: b :: rest) = a ++ '/' :: interJoin (b :: rest) := by
  rw [interJoin.eq_def]

theorem interJoin_head_append (s0 : List Char) (rest : List (List Char)) :
    ∃ t, interJoin (s0 :: rest) = s0 ++ t := by
  cases rest with
  | nil => exact ⟨[], by simp [interJoin]⟩
  | cons b bs => exact ⟨'/' :: interJoin (b :: bs), interJoin_cons₂ _ _ _⟩

theorem segsOf_interJoin (segs : List (List Char))
    (hne : segs ≠ []) (h : ∀ x ∈ segs, CleanSeg x) :
    segsOf (interJoin segs) = segs := by
  induction segs with
  | nil => exact absurd rfl hne
  | cons a rest ih =>
    obtain ⟨-, -, -, hsf⟩ := h a (List.mem_cons_self a rest)
    cases rest with
    | nil =>
      show segsOf (interJoin [a]) = [a]
      rw [show interJoin [a] = a from rfl]
      exact segsOf_slash_free a hsf
    | cons b bs =>
      rw [interJoin_cons₂, segsOf_append_slash a _ hsf]
      rw [ih (by simp) (fun x hx => h x (List.mem_cons_of_mem a hx))]

theorem isAbsPath_interJoin_clean (s0 : List Char)
    (rest : List (List Char)) (h : CleanSeg s0) :
    isAbsPath (interJoin (s0 :: rest)) = false := by
  obtain ⟨hne, -, -, hsf⟩ := h
  obtain ⟨t, ht⟩ := interJoin_head_append s0 rest
  cases s0 with
  | nil => exact absurd rfl hne
  | cons c cs =>
    rw [ht]
    simp only [List.cons_append, isAbsPath]
    simp only [decide_eq_false_iff_not]
    intro he
    exact hsf (he ▸ List.mem_cons_self c cs)

/-- A word with no `'/'` is returned unchanged by `normalize`. -/
theorem normalize_no_slash (wd s : List Char) (h : '/' ∉ s) :
    normalize wd s = s := by
  rw [normalize, if_pos h]

theorem normalize_root (wd : List Char) : normalize wd ['/'] = ['/'] := by
  rw [normalize]
  rw [if_neg (by simp)]
  rfl

/-- Fixpoint of `normalize` on the join of clean relative segments. -/
theorem normalize_clean_rel (wd : List Char) (segs : List (List Char))
    (hne : segs ≠ []) (h : ∀ x ∈ segs, CleanSeg x) :
    normalize wd (interJoin segs) = interJoin segs := by
  by_cases hs : '/' ∈ interJoin segs
  · rw [normalize, if_neg (by simpa using hs)]
    cases segs with
    | nil => exact absurd rfl hne
    | cons s0 rest =>
      rw [isAbsPath_interJoin_clean s0 rest (h s0 (List.mem_cons_self s0 rest))]
      rw [segsOf_interJoin _ hne h]
      rw [collapse_clean false _ h []]
      simp only [List.reverse_nil, List.nil_append]
      rfl
  · exact normalize_no_slash wd _ hs

theorem rfindSlash_spec (s : List Char) :
    ∀ i pos, rfindSlash s i = some pos →
      s.get? pos = some '/' ∧ pos ≤ i := by
  intro i
  induction i with
  | zero =>
    intro pos h
    rw [rfindSlash] at h
    split at h
    · cases h
      exact ⟨by assumption, Nat.le_refl 0⟩
    · cases h
  | succ n ih =>
    intro pos h
    rw [rfindSlash] at h
    split at h
    · cases h
      exact ⟨by assumption, Nat.le_refl _⟩
    · obtain ⟨h1, h2⟩ := ih pos h
      exact ⟨h1, Nat.le_succ_of_le h2⟩

theorem rfindSlash_total (s : List Char) (h : s.get? 0 = some '/') :
    ∀ i, ∃ pos, rfindSlash s i = some pos := by
  intro i
  induction i with
  | zero => exact ⟨0, by rw [rfindSlash, if_pos h]⟩
  | succ n ih =>
    by_cases hn : s.get? (n + 1) = some '/'
    · exact ⟨n + 1, by rw [rfindSlash, if_pos hn]⟩
    · obtain ⟨pos, hpos⟩ := ih
      exact ⟨pos, by rw [rfindSlash, if_neg hn]; exact hpos⟩

theorem drop_append_offset {α : Type} (l₁ l₂ : List α) (n : Nat) :
    (l₁ ++ l₂).drop (l₁.length + n) = l₂.drop n := by
  induction l₁ with
  | nil => simp
  | cons c cs ih =>
    simp only [List.cons_append, List.length_cons]
    have harith : cs.length + 1 + n = (cs.length + n) + 1 := by omega
    rw [harith, List.drop_succ_cons]
    exact ih

/-- A `'/'` inside the join of clean segments sits at a segment boundary:
dropping through it leaves the join of a clean nonempty suffix. -/
theorem interJoin_slash_boundary :
    ∀ (segs : List (List Char)), segs ≠ [] →
      (∀ x ∈ segs, CleanSeg x) →
      ∀ q, (interJoin segs).get? q = some '/' →
        ∃ segs', segs' ≠ [] ∧ (∀ x ∈ segs', CleanSeg x) ∧
          (interJoin segs).drop (q + 1) = interJoin segs' := by
  intro segs
  induction segs with
  | nil => intro h; exact absurd rfl h
  | cons a rest ih =>
    intro _ h q hq
    obtain ⟨-, -, -, hsf⟩ := h a (List.mem_cons_self a rest)
    cases rest with
    | nil =>
      exfalso
      have hja : interJoin [a] = a := rfl
      rw [hja] at hq
      exact hsf (List.get?_mem hq)
    | cons b bs =>
      rw [interJoin_cons₂] at hq ⊢
      have hsplit : a ++ '/' :: interJoin (b :: bs) =
          (a ++ ['/']) ++ interJoin (b :: bs) := by simp
      by_cases hlt : q < a.length
      · exfalso
        rw [List.get?_append hlt] at hq
        exact hsf (List.get?_mem hq)
      · have hge : a.length ≤ q := Nat.le_of_not_lt hlt
        by_cases hq0 : q = a.length
        · refine ⟨b :: bs, by simp,
            fun x hx => h x (List.mem_cons_of_mem a hx), ?_⟩
          rw [hsplit]
          have h1 : q + 1 = (a ++ ['/']).length + 0 := by
            simp [hq0]
          rw [h1, drop_append_offset]
          rfl
        · have hget : (interJoin (b :: bs)).get? (q - a.length - 1) =
              some '/' := by
            rw [List.get?_append_right hge] at hq
            have h2 : q - a.length = (q - a.length - 1) + 1 := by omega
            rw [h2] at hq
            simpa using hq
          obtain ⟨segs', hne', hclean', hdrop'⟩ :=
            ih (by simp) (fun x hx => h x (List.mem_cons_of_mem a hx))
              _ hget
          refine ⟨segs', hne', hclean', ?_⟩
          rw [hsplit]
          have h3 : q + 1 = (a ++ ['/']).length + (q - a.length) := by
            simp only [List.length_append, List.length_cons,
              List.length_nil]
            omega
          rw [h3, drop_append_offset]
          have h4 : q - a.length = (q - a.length - 1) + 1 := by omega
          rw [h4]
          exact hdrop'

/-- The same boundary fact for the absolute join `'/' :: interJoin segs`. -/
theorem abs_join_slash_boundary (segs : List (List Char))
    (hne : segs ≠ []) (hclean : ∀ x ∈ segs, CleanSeg x)
    (pos : Nat) (hpos : ('/' :: interJoin segs).get? pos = some '/') :
    ∃ segs', segs' ≠ [] ∧ (∀ x ∈ segs', CleanSeg x) ∧
      ('/' :: interJoin segs).drop (pos + 1) = interJoin segs' := by
  cases pos with
  | zero => exact ⟨segs, hne, hclean, rfl⟩
  | succ q =>
    have hq : (interJoin segs).get? q = some '/' := by simpa using hpos
    obtain ⟨segs', hne', hclean', hdrop'⟩ :=
      interJoin_slash_boundary segs hne hclean q hq
    exact ⟨segs', hne', hclean', by simpa using hdrop'⟩

/-- Classification of `normalize_abs` on an absolute clean join: either
the path is outside the working tree and returned unchanged, or the result
is `"."`, or the result is the join of a clean nonempty suffix. -/
theorem normalize_abs_classify (wd : List Char) (segs : List (List Char))
    (hne : segs ≠ []) (hclean : ∀ x ∈ segs, CleanSeg x) :
    (normalize_abs wd ('/' :: interJoin segs) = '/' :: interJoin segs ∧
      ¬ wd.isPrefixOf ('/' :: interJoin segs))
  ∨ normalize_abs wd ('/' :: interJoin segs) = ['.']
  ∨ ∃ segs', segs' ≠ [] ∧ (∀ x ∈ segs', CleanSeg x) ∧
      normalize_abs wd ('/' :: interJoin segs) = interJoin segs' := by
  by_cases hpre : wd.isPrefixOf ('/' :: interJoin segs)
  · rw [normalize_abs, if_neg (not_not_intro hpre)]
    by_cases hlen : ('/' :: interJoin segs).length = wd.length
    · rw [if_pos hlen]
      right; left; rfl
    · rw [if_neg hlen]
      by_cases hg : ('/' :: interJoin segs).get? wd.length = some '/'
      · rw [if_neg (not_not_intro hg)]
        by_cases hlen1 : ('/' :: interJoin segs).length = wd.length + 1
        · rw [if_pos hlen1]
          right; left; rfl
        · rw [if_neg hlen1]
          right; right
          exact abs_join_slash_boundary segs hne hclean wd.length hg
      · rw [if_pos hg]
        obtain ⟨pos, hpos⟩ := rfindSlash_total ('/' :: interJoin segs)
          rfl wd.length
        rw [hpos]
        obtain ⟨hslash, -⟩ :=
          rfindSlash_spec ('/' :: interJoin segs) wd.length pos hpos
        right; right
        exact abs_join_slash_boundary segs hne hclean pos hslash
  · rw [normalize_abs, if_pos hpre]
    exact Or.inl ⟨rfl, hpre⟩

/-- Fixpoint of `normalize` on an absolute clean join outside the working
tree. -/
theorem normalize_clean_abs (wd : List Char) (segs : List (List Char))
    (hne : segs ≠ []) (hclean : ∀ x ∈ segs, CleanSeg x)
    (hnp : ¬ wd.isPrefixOf ('/' :: interJoin segs)) :
    normalize wd ('/' :: interJoin segs) = '/' :: interJoin segs := by
  rw [normalize]
  rw [if_neg (not_not_intro (List.mem_cons_self '/' _))]
  have habsj : isAbsPath ('/' :: interJoin segs) = true := by
    simp [isAbsPath]
  rw [habsj]
  have hsegs : segsOf ('/' :: interJoin segs) = [] :: segs := by
    rw [segsOf, if_pos rfl, segsOf_interJoin segs hne hclean]
  rw [hsegs]
  rw [collapse_cons, if_pos rfl]
  rw [collapse_clean true segs hclean []]
  simp only [List.reverse_nil, List.nil_append]
  cases segs with
  | nil => exact absurd rfl hne
  | cons s0 rest =>
    show normalize_abs wd ('/' :: interJoin (s0 :: rest)) = _
    rw [normalize_abs, if_pos hnp]

/-- Fixpoint of `normalize` on every value `normalize_finish` returns for
clean segments, for an absolute working directory. -/
theorem normalize_finish_fixed (wd : List Char) (abs : Bool)
    (segs : List (List Char)) (hclean : ∀ x ∈ segs, CleanSeg x) :
    normalize wd (normalize_finish wd abs segs) =
      normalize_finish wd abs segs := by
  cases segs with
  | nil =>
    cases abs with
    | true =>
      show normalize wd ['/'] = ['/']
      exact normalize_root wd
    | false =>
      show normalize wd ['.'] = ['.']
      exact normalize_no_slash wd ['.'] (by decide)
  | cons s0 rest =>
    cases abs with
    | false =>
      show normalize wd (interJoin (s0 :: rest)) = interJoin (s0 :: rest)
      exact normalize_clean_rel wd _ (by simp) hclean
    | true =>
      show normalize wd (normalize_abs wd ('/' :: interJoin (s0 :: rest))) =
        normalize_abs wd ('/' :: interJoin (s0 :: rest))
      rcases normalize_abs_classify wd (s0 :: rest) (by simp) hclean with
        ⟨heq, hnp⟩ | heq | ⟨segs', hne', hclean', heq⟩
      · rw [heq]
        exact normalize_clean_abs wd _ (by simp) hclean hnp
      · rw [heq]
        exact normalize_no_slash wd ['.'] (by decide)
      · rw [heq]
        exact normalize_clean_rel wd segs' hne' hclean'

/-- C8: `normalize` is idempotent (for the absolute working directory
produced by `init_working_dir`), including `.`/`..` collapsing and paths
that leave the working tree and keep their absolute form. -/
theorem normalize_idempotent (wd s : List Char)
    (habs : isAbsPath wd = true) :
    normalize wd (normalize wd s) = normalize wd s := by
  by_cases hs : '/' ∈ s
  · cases h1 : collapse (isAbsPath s) [] (segsOf s) with
    | some segs =>
      have hval : normalize wd s = normalize_finish wd (isAbsPath s) segs := by
        rw [normalize, if_neg (not_not_intro hs), h1]
      have hclean : ∀ x ∈ segs, CleanSeg x :=
        collapse_output_clean (isAbsPath s) (segsOf s) [] segs
          (by simp) (segsOf_mem_slash_free s) h1
      rw [hval]
      exact normalize_finish_fixed wd (isAbsPath s) segs hclean
    | none =>
      have habs2 : isAbsPath (wd ++ '/' :: s) = true := by
        cases wd with
        | nil => simp [isAbsPath] at habs
        | cons c w' =>
          simp only [isAbsPath, decide_eq_true_eq] at habs
          simp [isAbsPath, habs]
      obtain ⟨out, hout⟩ := collapse_absolute_total (segsOf (wd ++ '/' :: s)) []
      have hval : normalize wd s = normalize_finish wd true out := by
        rw [normalize, if_neg (not_not_intro hs), h1]
        show (match collapse (isAbsPath (wd ++ '/' :: s)) []
            (segsOf (wd ++ '/' :: s)) with
          | some segs => normalize_finish wd (isAbsPath (wd ++ '/' :: s)) segs
          | none => ([] : List Char)) = normalize_finish wd true out
        rw [habs2, hout]
      have hclean : ∀ x ∈ out, CleanSeg x :=
        collapse_output_clean true (segsOf (wd ++ '/' :: s)) [] out
          (by simp) (segsOf_mem_slash_free _) hout
      rw [hval]
      exact normalize_finish_fixed wd true out hclean
  · rw [normalize_no_slash wd s hs]
    exact normalize_no_slash wd s hs

/-- Witness for C8 at a concrete path with `..` escaping the working
directory: `normalize "/w" "a/../../b"` is `"/b"` and is a fixpoint. -/
theorem normalize_idempotent_witness :
    isAbsPath "/w".data = true ∧
    normalize "/w".data (normalize "/w".data "a/../../b".data) =
      normalize "/w".data "a/../../b".data :=
  ⟨by decide, normalize_idempotent "/w".data "a/../../b".data (by decide)⟩

/-! ## C1: the first evaluation of `get_status`. -/

/-- The sibling loop computes the recording map, the missing-sibling flag,
and the maximum sibling mtime. -/
theorem statSiblings_eq (e : env_t) :
    ∀ (ts : List String) (sm : StatusMap) (st : status_e) (latest : Nat),
      statSiblings e sm st latest ts =
        (spec_record_lasts e sm ts,
         (if ts.any (fun k => (e.fs k).isNone) then status_e.Todo else st),
         ts.foldl (fun a k => max a ((e.fs k).getD 0)) latest) := by
  intro ts
  induction ts with
  | nil =>
    intro sm st latest
    simp [statSiblings, spec_record_lasts]
  | cons k ks ih =>
    intro sm st latest
    rw [statSiblings, spec_record_lasts]
    rw [ih]
    by_cases hk : (e.fs k).isNone
    · simp [hk, List.any_cons, ite_self]
    · simp [hk, List.any_cons]

/-- Range of the spec's prerequisite scan. -/
theorem spec_check_range (rec : StatusMap → String → StatusMap × status_t)
    (latest : Nat) :
    ∀ (ds : List String) (sm : StatusMap),
      (spec_check rec latest sm ds).2 = .Todo ∨
      (spec_check rec latest sm ds).2 = .Recheck ∨
      (spec_check rec latest sm ds).2 = .Uptodate := by
  intro ds
  induction ds with
  | nil =>
    intro sm
    right; right; rfl
  | cons d ds ih =>
    intro sm
    rw [spec_check]
    by_cases h1 : latest < (rec sm d).2.last
    · rw [if_pos h1]
      left; rfl
    · rw [if_neg h1]
      rcases hsc : spec_check rec latest (rec sm d).1 ds with ⟨sm', st'⟩
      have hst' := ih (rec sm d).1
      rw [hsc] at hst'
      rcases hst' with rfl | rfl | rfl
      · left; rfl
      · by_cases h2 : (rec sm d).2.status = .Uptodate <;>
          simp [h2]
      · by_cases h2 : (rec sm d).2.status = .Uptodate <;>
          simp [h2]

/-- The prerequisite loop of `get_status` equals the spec's sequential
scan combined with the running accumulator. -/
theorem checkDeps_eq_spec_check
    (rec : StatusMap → String → StatusMap × status_t) (latest : Nat) :
    ∀ (ds : List String) (sm : StatusMap) (acc : status_e),
      acc = .Uptodate ∨ acc = .Recheck →
      checkDeps rec latest sm acc ds =
        ((spec_check rec latest sm ds).1,
         status_combine acc (spec_check rec latest sm ds).2) := by
  intro ds
  induction ds with
  | nil =>
    intro sm acc hacc
    rw [checkDeps, spec_check]
    rcases hacc with rfl | rfl <;> simp [status_combine]
  | cons d ds ih =>
    intro sm acc hacc
    rw [checkDeps, spec_check]
    by_cases h1 : latest < (rec sm d).2.last
    · rw [if_pos h1, if_pos h1]
      simp [status_combine]
    · rw [if_neg h1, if_neg h1]
      rcases hsc : spec_check rec latest (rec sm d).1 ds with ⟨sm', st'⟩
      by_cases h2 : (rec sm d).2.status = .Uptodate
      · rw [if_pos h2, ih _ acc hacc, hsc]
        cases st' <;> simp [status_combine, h2]
      · rw [if_neg h2, ih _ .Recheck (Or.inr rfl), hsc]
        rcases hacc with rfl | rfl <;>
          cases st' <;> simp [status_combine, h2]

/-- With an `Uptodate` accumulator the loop is exactly the spec scan. -/
theorem checkDeps_uptodate_eq
    (rec : StatusMap → String → StatusMap × status_t) (latest : Nat)
    (ds : List String) (sm : StatusMap) :
    checkDeps rec latest sm .Uptodate ds = spec_check rec latest sm ds := by
  rw [checkDeps_eq_spec_check rec latest ds sm .Uptodate (Or.inl rfl)]
  have hcomb : status_combine .Uptodate (spec_check rec latest sm ds).2 =
      (spec_check rec latest sm ds).2 := by
    rcases spec_check_range rec latest ds sm with h | h | h <;>
      rw [h] <;> rfl
  rw [hcomb]

/-- The record evaluation of `get_status` in spec terms: the recording
map, plus Todo on a missing sibling and otherwise the spec scan at the
maximum sibling mtime. -/
theorem record_scan_eq (e : env_t)
    (rec : StatusMap → String → StatusMap × status_t) (sm1 : StatusMap)
    (dep : dependency_t) :
    record_scan e rec sm1 dep =
      (if dep.targets.any (fun k => (e.fs k).isNone) then
        (spec_record_lasts e sm1 dep.targets, status_e.Todo)
      else
        spec_check rec
          (dep.targets.foldl (fun a k => max a ((e.fs k).getD 0)) 0)
          (spec_record_lasts e sm1 dep.targets) dep.deps) := by
  unfold record_scan
  rw [statSiblings_eq]
  by_cases h : dep.targets.any (fun k => (e.fs k).isNone)
  · simp [h]
  · simp [h, checkDeps_uptodate_eq]

/-! Preservation of recorded mtimes through the evaluator. -/

theorem smUpd_preserves_lastOK (e : env_t) (sm : StatusMap) (k k' : String)
    (v : status_t) (hv : v.last = (e.fs k').getD 0 ∨ k ≠ k')
    (h : lastOK e sm k) : lastOK e (smUpd sm k' v) k := by
  rcases hv with hv | hv
  · by_cases hk : k = k'
    · subst hk
      exact ⟨v, smUpd_same _ _ _, hv⟩
    · obtain ⟨w, hw, hl⟩ := h
      exact ⟨w, by rw [smUpd_other _ _ _ _ hk]; exact hw, hl⟩
  · obtain ⟨w, hw, hl⟩ := h
    exact ⟨w, by rw [smUpd_other _ _ _ _ hv]; exact hw, hl⟩

theorem spec_record_lasts_preserves (e : env_t) (k : String) :
    ∀ (ts : List String) (sm : StatusMap),
      lastOK e sm k → lastOK e (spec_record_lasts e sm ts) k := by
  intro ts
  induction ts with
  | nil => intro sm h; exact h
  | cons j js ih =>
    intro sm h
    rw [spec_record_lasts]
    exact ih _ (smUpd_preserves_lastOK e sm k j _ (by
      by_cases hkj : k = j
      · subst hkj; exact Or.inl rfl
      · exact Or.inr hkj) h)

theorem spec_record_lasts_establishes (e : env_t) :
    ∀ (ts : List String) (sm : StatusMap) (k : String), k ∈ ts →
      lastOK e (spec_record_lasts e sm ts) k := by
  intro ts
  induction ts with
  | nil => intro sm k h; cases h
  | cons j js ih =>
    intro sm k hk
    rw [spec_record_lasts]
    rcases List.mem_cons.mp hk with rfl | hk'
    · by_cases hkj : k ∈ js
      · exact ih _ k hkj
      · apply spec_record_lasts_preserves
        exact ⟨_, smUpd_same _ _ _, rfl⟩
    · exact ih _ k hk'

theorem setStatusAll_preserves_lastOK (e : env_t) (k : String) :
    ∀ (ts : List String) (sm : StatusMap) (st : status_e),
      lastOK e sm k → lastOK e (setStatusAll e sm st ts) k := by
  intro ts
  induction ts with
  | nil => intro sm st h; exact h
  | cons j js ih =>
    intro sm st h
    rw [setStatusAll]
    apply ih
    by_cases hkj : k = j
    · subst hkj
      obtain ⟨v, hv, hl⟩ := h
      exact ⟨_, smUpd_same _ _ _, by simp [hv, hl]⟩
    · obtain ⟨v, hv, hl⟩ := h
      exact ⟨v, by rw [smUpd_other _ _ _ _ hkj]; exact hv, hl⟩

theorem spec_check_preserves_lastOK (e : env_t) (k : String)
    (rec : StatusMap → String → StatusMap × status_t) (latest : Nat)
    (hrec : ∀ sm t, lastOK e sm k → lastOK e (rec sm t).1 k) :
    ∀ (ds : List String) (sm : StatusMap),
      lastOK e sm k → lastOK e (spec_check rec latest sm ds).1 k := by
  intro ds
  induction ds with
  | nil => intro sm h; exact h
  | cons d ds ih =>
    intro sm h
    rw [spec_check]
    by_cases h1 : latest < (rec sm d).2.last
    · rw [if_pos h1]
      exact hrec sm d h
    · rw [if_neg h1]
      rcases hsc : spec_check rec latest (rec sm d).1 ds with ⟨sm', st'⟩
      have h2 := ih ((rec sm d).1) (hrec sm d h)
      rw [hsc] at h2
      cases st' <;> exact h2

theorem get_status_preserves_lastOK (e : env_t) (k : String) :
    ∀ (fuel : Nat) (sm : StatusMap) (t : String),
      lastOK e sm k → lastOK e (get_status e fuel sm t).1 k := by
  intro fuel
  induction fuel with
  | zero => intro sm t h; exact h
  | succ n ih =>
    intro sm t h
    rw [get_status]
    cases hmem : sm t with
    | some ts => exact h
    | none =>
      have hkt : k ≠ t := by
        rintro rfl
        obtain ⟨v, hv, -⟩ := h
        rw [hmem] at hv
        cases hv
      have h1 : lastOK e (smUpd sm t e.uninit) k :=
        smUpd_preserves_lastOK e sm k t _ (Or.inr hkt) h
      cases hdep : e.dependencies t with
      | none =>
        cases hfs : e.fs t with
        | none =>
          exact smUpd_preserves_lastOK e _ k t _ (Or.inr hkt) h1
        | some m =>
          exact smUpd_preserves_lastOK e _ k t _ (Or.inr hkt) h1
      | some dep =>
        simp only [get_status_record]
        apply setStatusAll_preserves_lastOK
        rw [record_scan_eq]
        split
        · exact spec_record_lasts_preserves e k dep.targets _ h1
        · apply spec_check_preserves_lastOK e k _ _ ih
          exact spec_record_lasts_preserves e k dep.targets _ h1

theorem setStatusAll_untouched (e : env_t) :
    ∀ (ts : List String) (sm : StatusMap) (st : status_e) (k : String),
      k ∉ ts → setStatusAll e sm st ts k = sm k := by
  intro ts
  induction ts with
  | nil => intro sm st k _; rfl
  | cons j js ih =>
    intro sm st k hk
    rw [setStatusAll]
    have hkj : k ≠ j := fun he => hk (he ▸ List.mem_cons_self j js)
    rw [ih _ st k (fun hm => hk (List.mem_cons_of_mem j hm))]
    exact smUpd_other _ _ _ _ hkj

/-- The final loop of `get_status` assigns the concluded status uniformly
while keeping the recorded mtimes. -/
theorem setStatusAll_lookup (e : env_t) :
    ∀ (ts : List String) (sm : StatusMap) (st : status_e),
      (∀ k ∈ ts, lastOK e sm k) →
      ∀ k ∈ ts, setStatusAll e sm st ts k =
        some ⟨st, (e.fs k).getD 0⟩ := by
  intro ts
  induction ts with
  | nil => intro sm st _ k hk; cases hk
  | cons j js ih =>
    intro sm st hall k hk
    rw [setStatusAll]
    have hall' : ∀ k' ∈ js,
        lastOK e (smUpd sm j ⟨st, ((sm j).getD e.uninit).last⟩) k' := by
      intro k' hk'
      apply smUpd_preserves_lastOK e sm k' j _ ?_
        (hall k' (List.mem_cons_of_mem j hk'))
      by_cases hkj : k' = j
      · obtain ⟨v, hv, hl⟩ := hall j (List.mem_cons_self j js)
        exact Or.inl (by simp [hv, hl])
      · exact Or.inr hkj
    rcases List.mem_cons.mp hk with rfl | hk'
    · by_cases hjr : k ∈ js
      · exact ih _ st hall' k hjr
      · rw [setStatusAll_untouched e js _ st k hjr]
        obtain ⟨v, hv, hl⟩ := hall k (List.mem_cons_self k js)
        simp [smUpd, hv, hl]
    · exact ih _ st hall' k hk'

/-- On a fresh target with a record, `get_status` runs the record branch
on the map with the memo entry inserted. -/
theorem get_status_fresh_record (e : env_t) (fuel : Nat) (sm : StatusMap)
    (t : String) (R : dependency_t) (hfresh : sm t = none)
    (hdep : e.dependencies t = some R) :
    get_status e (fuel + 1) sm t =
      get_status_record e (get_status e fuel) (smUpd sm t e.uninit) t R := by
  rw [get_status, hfresh, hdep]

/-- C1: the first evaluation of `get_status` computes and memoizes the
spec's algorithm.  Without a dependency record the entry becomes Todo/0
for a missing file and Uptodate/mtime for an existing one.  With a shared
record `R`, every sibling's entry ends with its own recorded mtime and,
uniformly, the concluded status: Todo if some sibling is missing,
otherwise the sequential prerequisite scan — Todo at a prerequisite whose
recursively computed last time exceeds the maximum sibling mtime, else
Recheck if some prerequisite is not Uptodate, else Uptodate — and the
value returned for the target itself is its memoized entry. -/
theorem get_status_first_query_follows_spec (e : env_t) (fuel : Nat)
    (sm : StatusMap) (t : String) (hfresh : sm t = none) :
    (e.dependencies t = none →
        get_status e (fuel + 1) sm t =
          (smUpd (smUpd sm t e.uninit) t (spec_no_record_status e t),
            spec_no_record_status e t))
  ∧ (∀ R, e.dependencies t = some R →
        (∀ k ∈ R.targets,
          (get_status e (fuel + 1) sm t).1 k =
            some ⟨spec_status_conclusion e fuel sm t R, (e.fs k).getD 0⟩)
      ∧ (t ∈ R.targets →
          (get_status e (fuel + 1) sm t).2 =
            ⟨spec_status_conclusion e fuel sm t R, (e.fs t).getD 0⟩)) := by
  constructor
  · intro hdep
    rw [get_status, hfresh, hdep]
    cases hfs : e.fs t <;> simp [spec_no_record_status, hfs]
  · intro R hdep
    have hscan2 :
        (record_scan e (get_status e fuel) (smUpd sm t e.uninit) R).2 =
          spec_status_conclusion e fuel sm t R := by
      rw [record_scan_eq]
      unfold spec_status_conclusion
      by_cases h : R.targets.any (fun k => (e.fs k).isNone) <;> simp [h]
    have hlastOK : ∀ k ∈ R.targets,
        lastOK e
          (record_scan e (get_status e fuel) (smUpd sm t e.uninit) R).1 k := by
      intro k hk
      rw [record_scan_eq]
      by_cases h : R.targets.any (fun k => (e.fs k).isNone)
      · rw [if_pos h]
        exact spec_record_lasts_establishes e R.targets _ k hk
      · rw [if_neg h]
        apply spec_check_preserves_lastOK e k _ _
          (fun sm' t' hh => get_status_preserves_lastOK e k fuel sm' t' hh)
        exact spec_record_lasts_establishes e R.targets _ k hk
    have hkey : ∀ k ∈ R.targets,
        (get_status e (fuel + 1) sm t).1 k =
          some ⟨spec_status_conclusion e fuel sm t R, (e.fs k).getD 0⟩ := by
      intro k hk
      rw [get_status_fresh_record e fuel sm t R hfresh hdep]
      simp only [get_status_record]
      rw [hscan2] at *
      rw [setStatusAll_lookup e R.targets _ _ hlastOK k hk]
    refine ⟨hkey, ?_⟩
    intro ht
    have hlook := hkey t ht
    rw [get_status_fresh_record e fuel sm t R hfresh hdep] at hlook ⊢
    show ((get_status_record e (get_status e fuel) (smUpd sm t e.uninit)
        t R).1 t).getD e.uninit = _
    rw [hlook]
    rfl

/-- Witness for C1: a fresh query of `"a"` (mtime 5, no record) yields
Uptodate with last 5, memoized. -/
theorem get_status_first_query_witness :
    (sm_empty "a" = none ∧ env_c1w.dependencies "a" = none ∧
      spec_no_record_status env_c1w "a" = ⟨.Uptodate, 5⟩) ∧
    get_status env_c1w 1 sm_empty "a" =
      (smUpd (smUpd sm_empty "a" env_c1w.uninit) "a"
        (spec_no_record_status env_c1w "a"),
        spec_no_record_status env_c1w "a") :=
  ⟨⟨rfl, rfl, by decide⟩,
    (get_status_first_query_follows_spec env_c1w 0 sm_empty "a" rfl).1 rfl⟩

end Remake
